import Mathlib

/-!
# Simple-Dictionary: a verification development

A shallow embedding of `cmd/main.go` (the dictionary server with its four
handlers, `readDictionary`, `saveDictionary` and the start-up part of `main`)
and of `loadDictionary` from the top-level `main.go`.

Conventions of the embedding:

* a Go `string` is a Lean `String`; every string the server ever stores comes
  out of `encoding/json`, which only produces valid UTF-8;
* a Go `map[string]string` is a `GoMap`: a key-unique association list. The
  order of the list is the (unspecified) iteration order of the Go map, so a
  statement over every `GoMap` covers every iteration order;
* `encoding/json` is embedded at the level of JSON values: a request body or a
  file is described by the JSON value its bytes spell (or by the fact that they
  spell none), and the typed decoding rules of `Decode`/`Unmarshal` are
  embedded on these values;
* the file system is the one file `dictionary.json`: absent, not openable, not
  readable, or present with its content. How the file write of a
  `saveDictionary` call goes (success, failure of `os.OpenFile`, failure of the
  write) is an argument of the handler;
* a handler is a function from the response writer, the request and the state
  to the response writer and the state it leaves. The mutex `dict.mu` appears
  in the model of concurrent calls only: a handler that runs alone always gets
  it and releases it on return.
-/

namespace SimpleDictionary

/-! ## Go maps -/

/-- A Go `map[string]string`: an association list without repeated keys. -/
structure GoMap where
  entries : List (String × String)
  nodup : (entries.map Prod.fst).Nodup

namespace GoMap

/-- The map built by `make(map[string]string)`. -/
def empty : GoMap := ⟨[], List.nodup_nil⟩

/-- The lookup `v, ok := m[k]`. -/
def get? (m : GoMap) (k : String) : Option String :=
  (m.entries.find? (fun e => e.1 == k)).map Prod.snd

/-- The entries of a list whose key is not `k`. -/
def without (k : String) (l : List (String × String)) : List (String × String) :=
  l.filter (fun e => e.1 != k)

/-- The assignment `m[k] = v`. -/
def set (m : GoMap) (k v : String) : GoMap :=
  ⟨(k, v) :: without k m.entries, by
    rw [List.map_cons, List.nodup_cons]
    exact ⟨by simp [without],
      m.nodup.sublist ((List.filter_sublist m.entries).map Prod.fst)⟩⟩

/-- The statement `delete(m, k)`. -/
def delete (m : GoMap) (k : String) : GoMap :=
  ⟨without k m.entries, m.nodup.sublist ((List.filter_sublist m.entries).map Prod.fst)⟩

end GoMap

/-! ## JSON values and the typed decoding of `encoding/json` -/

/-- A JSON value. A number keeps its literal. -/
inductive JSON where
  | null
  | bool (b : Bool)
  | num (lit : String)
  | str (s : String)
  | arr (elems : List JSON)
  | obj (members : List (String × JSON))

/-- The member of an object under key `k` (the first one), nothing for a value
that is not an object. -/
def JSON.member? : JSON → String → Option JSON
  | .obj ms, k => (ms.find? (fun e => e.1 == k)).map Prod.snd
  | _, _ => none

/-- Why `Decode`/`Unmarshal` returned an error. -/
inductive DecodeError where
  /-- the bytes do not spell a JSON value (`SyntaxError`, `io.EOF`) -/
  | syntaxError
  /-- a value does not fit the Go type (`UnmarshalTypeError`) -/
  | typeError
  deriving DecidableEq

/-- Byte-wise order of two strings (on valid UTF-8 the order of the code
points), the order in which `encoding/json` writes the keys of a map. -/
def keyLe : List Char → List Char → Bool
  | [], _ => true
  | _ :: _, [] => false
  | a :: as, b :: bs => a.toNat < b.toNat || (a.toNat == b.toNat && keyLe as bs)

/-- The keys of a map in the order `encoding/json` writes them. -/
def sortedEntries (m : GoMap) : List (String × String) :=
  m.entries.insertionSort (fun a b => keyLe a.1.data b.1.data = true)

/-- The value `json.NewEncoder(_).Encode(m)` writes for a non-nil map: an
object with one string member per entry, keys sorted. -/
def Encode (m : GoMap) : JSON :=
  .obj ((sortedEntries m).map (fun e => (e.1, JSON.str e.2)))

/-- One member of a JSON object stored into a `map[string]string`: a string is
stored, `null` stores the zero value, any other value records a type error and
stores the zero value. The flag is the saved error. This is the documented rule
of `Unmarshal`: on a value that does not fit the target type it "skips that
field and completes the unmarshaling as best it can", and returns the earliest
`UnmarshalTypeError` at the end. -/
def storeMember (acc : GoMap × Bool) (kv : String × JSON) : GoMap × Bool :=
  match kv.2 with
  | .str s => (acc.1.set kv.1 s, acc.2)
  | .null => (acc.1.set kv.1 "", acc.2)
  | _ => (acc.1.set kv.1 "", true)

/-- The decoding of a JSON text into a `map[string]string` variable whose
current value is `target` (`none` is the nil map): the new value of the
variable and the error. An object is stored member by member into the existing
map (a fresh one if nil) and a type error inside it does not stop the decoding;
`null` sets the variable to nil; a text that is no JSON value, or a value that
is neither, leaves the variable alone. -/
def unmarshalMap (doc : Option JSON) (target : Option GoMap) :
    Option GoMap × Option DecodeError :=
  match doc with
  | none => (target, some .syntaxError)
  | some .null => (none, none)
  | some (.obj ms) =>
    let r := ms.foldl storeMember (target.getD GoMap.empty, false)
    (some r.1, if r.2 then some .typeError else none)
  | some _ => (target, some .typeError)

/-- Case folding of a JSON key for the match with a struct field. For the
field names of this program (`word`, `definition`: ASCII, no `s`, no `k`) the
folding of `encoding/json` agrees with the ASCII one. -/
def foldName (s : String) : String := ⟨s.data.map Char.toUpper⟩

/-- Does the JSON key select the struct field tagged `name`: an exact match, or
else a case-insensitive one. -/
def matchesField (name key : String) : Bool :=
  key == name || foldName key == foldName name

/-- A JSON value stored into a `string` field: a string is stored, `null`
leaves the field alone, any other value records a type error and leaves the
field alone. -/
def storeString (field : String) (v : JSON) : String × Bool :=
  match v with
  | .str s => (s, false)
  | .null => (field, false)
  | _ => (field, true)

/-! ## Requests and responses of `net/http` -/

/-- The method name `http.MethodGet`. -/
def http.MethodGet : String := "GET"

/-- The method name `http.MethodPost`. -/
def http.MethodPost : String := "POST"

/-- The status `http.StatusOK`. -/
def http.StatusOK : Nat := 200

/-- The status `http.StatusBadRequest`. -/
def http.StatusBadRequest : Nat := 400

/-- The status `http.StatusMethodNotAllowed`. -/
def http.StatusMethodNotAllowed : Nat := 405

/-- The status `http.StatusInternalServerError`. -/
def http.StatusInternalServerError : Nat := 500

/-- The part of an `*http.Request` the handlers look at: the method, the JSON
value the decoder finds first in the body (`none`: the body is empty or does
not start with a JSON value) and the parsed query of the URL. -/
structure Request where
  Method : String
  Body : Option JSON
  Query : List (String × String)

/-- The call `r.URL.Query().Get(key)`: the first value under `key`, the empty
string when there is none. -/
def Request.QueryGet (r : Request) (key : String) : String :=
  match r.Query.find? (fun e => e.1 == key) with
  | some e => e.2
  | none => ""

/-- What a handler writes into the body of a response. -/
inductive Chunk where
  | text (s : String)
  | json (v : JSON)

/-- An `http.ResponseWriter`: the status code once the header is written, and
the body written so far. -/
structure ResponseWriter where
  code : Option Nat
  body : List Chunk

/-- A response nothing has been written to. -/
def ResponseWriter.fresh : ResponseWriter := ⟨none, []⟩

/-- The call `w.WriteHeader(c)`: the first call fixes the status, a later one
is superfluous and ignored. -/
def ResponseWriter.WriteHeader (w : ResponseWriter) (c : Nat) : ResponseWriter :=
  match w.code with
  | some _ => w
  | none => { w with code := some c }

/-- The call `w.Write(_)`: writes the header with status 200 if none was
written, then appends to the body. -/
def ResponseWriter.Write (w : ResponseWriter) (ch : Chunk) : ResponseWriter :=
  let w := w.WriteHeader http.StatusOK
  { w with body := w.body ++ [ch] }

/-- The status the client receives: the one written, 200 when the handler
returned without writing any. -/
def ResponseWriter.status (w : ResponseWriter) : Nat :=
  w.code.getD http.StatusOK

/-- The call `http.Error(w, msg, code)`. -/
def http.Error (w : ResponseWriter) (msg : String) (code : Nat) : ResponseWriter :=
  (w.WriteHeader code).Write (.text msg)

/-! ## The request bodies -/

/-- The struct `req` of `AddWordHandler`. -/
structure AddReq where
  Word : String
  Definition : String

/-- One member of the body stored into `req`; the flag is the saved error. A
key that selects no field is skipped. -/
def AddReq.storeMember (acc : AddReq × Bool) (kv : String × JSON) : AddReq × Bool :=
  if matchesField "word" kv.1 then
    let r := storeString acc.1.Word kv.2
    ({ acc.1 with Word := r.1 }, acc.2 || r.2)
  else if matchesField "definition" kv.1 then
    let r := storeString acc.1.Definition kv.2
    ({ acc.1 with Definition := r.1 }, acc.2 || r.2)
  else acc

/-- The call `json.NewDecoder(r.Body).Decode(&req)` of `AddWordHandler`, on the
zero-valued `req`. -/
def decodeAddReq (body : Option JSON) : Except DecodeError AddReq :=
  match body with
  | none => .error .syntaxError
  | some .null => .ok ⟨"", ""⟩
  | some (.obj ms) =>
    let r := ms.foldl AddReq.storeMember (⟨"", ""⟩, false)
    if r.2 then .error .typeError else .ok r.1
  | some _ => .error .typeError

/-- The struct `delete_word` of `DeleteWordHandler`. -/
structure DeleteReq where
  Word : String

/-- One member of the body stored into `delete_word`. -/
def DeleteReq.storeMember (acc : DeleteReq × Bool) (kv : String × JSON) : DeleteReq × Bool :=
  if matchesField "word" kv.1 then
    let r := storeString acc.1.Word kv.2
    ({ acc.1 with Word := r.1 }, acc.2 || r.2)
  else acc

/-- The call `json.NewDecoder(r.Body).Decode(&delete_word)` of
`DeleteWordHandler`, on the zero-valued `delete_word`. -/
def decodeDeleteReq (body : Option JSON) : Except DecodeError DeleteReq :=
  match body with
  | none => .error .syntaxError
  | some .null => .ok ⟨""⟩
  | some (.obj ms) =>
    let r := ms.foldl DeleteReq.storeMember (⟨""⟩, false)
    if r.2 then .error .typeError else .ok r.1
  | some _ => .error .typeError

/-! ## The process state and the file -/

/-- The file `dictionary.json` as the server finds it. -/
inductive File where
  /-- there is no such file: `os.Open` fails with a not-exist error -/
  | absent
  /-- the file is there but `os.Open` fails -/
  | noAccess
  /-- the file opens but reading it fails -/
  | unreadable
  /-- the file reads; its bytes spell the JSON value `doc`, or none -/
  | present (doc : Option JSON)

/-- A Go `error` value of the persistence code. -/
inductive GoError where
  | io
  | decode (e : DecodeError)

/-- The struct `Dictionary` (the mutex is part of the concurrent model only). -/
structure Dictionary where
  Words : GoMap

/-- The state a handler runs in: the variable `dict` and the file. -/
structure World where
  dict : Dictionary
  file : File

/-- How the file write of one `saveDictionary` call goes. -/
inductive SaveOutcome where
  /-- the file is opened, truncated and written in full -/
  | ok
  /-- `os.OpenFile` returns an error; the file is not touched -/
  | openFails
  /-- the file is opened and truncated, the write returns an error and leaves
  bytes that spell `left` -/
  | writeFails (left : Option JSON)

/-- The function `saveDictionary`: the new state and the returned error. -/
def saveDictionary (o : SaveOutcome) (σ : World) : World × Option GoError :=
  match o with
  | .openFails => (σ, some .io)
  | .writeFails left => ({ σ with file := .present left }, some .io)
  | .ok => ({ σ with file := .present (some (Encode σ.dict.Words)) }, none)

/-- The function `readDictionary`: the returned map (`none` is nil) and error. -/
def readDictionary (file : File) : Option GoMap × Option GoError :=
  match file with
  | .absent => (none, none)
  | .noAccess => (none, some .io)
  | .unreadable => (none, some .io)
  | .present doc =>
    match unmarshalMap doc none with
    | (_, some err) => (none, some (.decode err))
    | (result, none) => (result, none)

/-- The start-up part of `main`: `dict` as the package initialises it, then the
load. Returns the state the server starts with and the error it logs. -/
def main (file : File) : World × Option GoError :=
  let dict : Dictionary := ⟨GoMap.empty⟩
  match readDictionary file with
  | (_, some err) => (⟨dict, file⟩, some err)
  | (some loadedDict, none) => (⟨⟨loadedDict⟩, file⟩, none)
  | (none, none) => (⟨dict, file⟩, none)

/-- The function `loadDictionary` of the top-level `main.go`, which decodes the
file straight into `dict.Words`: the new value of `dict.Words` (`none` is nil)
and the returned error. -/
def TopLevel.loadDictionary (file : File) (Words : Option GoMap) :
    Option GoMap × Option GoError :=
  match file with
  | .absent => (Words, none)
  | .noAccess => (Words, some .io)
  | .unreadable => (Words, some .io)
  | .present doc =>
    match unmarshalMap doc Words with
    | (Words, some err) => (Words, some (.decode err))
    | (Words, none) => (Words, none)

/-- The start-up part of the top-level `main`: the value of `dict.Words` the
server starts with and the error it logs. -/
def TopLevel.main (file : File) : Option GoMap × Option GoError :=
  TopLevel.loadDictionary file (some GoMap.empty)

/-! ## The handlers -/

/-- The function `AddWordHandler`. -/
def AddWordHandler (o : SaveOutcome) (w : ResponseWriter) (r : Request) (σ : World) :
    ResponseWriter × World :=
  if r.Method != http.MethodPost then
    (http.Error w "Invalid request method" http.StatusMethodNotAllowed, σ)
  else
    match decodeAddReq r.Body with
    | .error _ => (http.Error w "Invalid request body" http.StatusBadRequest, σ)
    | .ok req =>
      let σ := { σ with dict := ⟨σ.dict.Words.set req.Word req.Definition⟩ }
      match saveDictionary o σ with
      | (σ, some _) =>
        (http.Error w "Error saving dictionary" http.StatusInternalServerError, σ)
      | (σ, none) => (w.WriteHeader http.StatusOK, σ)

/-- The function `DeleteWordHandler`. The method check writes its error and
falls through: there is no `return` in its branch. -/
def DeleteWordHandler (o : SaveOutcome) (w : ResponseWriter) (r : Request) (σ : World) :
    ResponseWriter × World :=
  let w := if r.Method != http.MethodPost then
      http.Error w "Invalid request method" http.StatusMethodNotAllowed
    else w
  match decodeDeleteReq r.Body with
  | .error _ => (http.Error w "Invalid request body" http.StatusBadRequest, σ)
  | .ok delete_word =>
    let σ := { σ with dict := ⟨σ.dict.Words.delete delete_word.Word⟩ }
    match saveDictionary o σ with
    | (σ, some _) =>
      (http.Error w "Error saving dictionary" http.StatusInternalServerError, σ)
    | (σ, none) => (w.WriteHeader http.StatusOK, σ)

/-- The function `GetWordsHandler`. -/
def GetWordsHandler (w : ResponseWriter) (r : Request) (σ : World) :
    ResponseWriter × World :=
  if r.Method != http.MethodGet then
    (http.Error w "Invalid request method" http.StatusMethodNotAllowed, σ)
  else
    (w.Write (.json (Encode σ.dict.Words)), σ)

/-- The function `strings.ToLower`: rune by rune, an ASCII rune by the ASCII
rule and any other rune by the Unicode table `lower` of the Go release. -/
def strings.ToLower (lower : Char → Char) (s : String) : String :=
  ⟨s.data.map (fun c => if c.toNat < 128 then c.toLower else lower c)⟩

/-- The function `strings.HasPrefix`. -/
def strings.HasPrefix (s pre : String) : Bool :=
  pre.data.isPrefixOf s.data

/-- The body of the `range` loop of `GetWordsByLetterHandler`. -/
def filterStep (lower : Char → Char) (letter : String) (filteredWords : GoMap)
    (e : String × String) : GoMap :=
  if strings.HasPrefix (strings.ToLower lower e.1) letter then
    filteredWords.set e.1 e.2
  else filteredWords

/-- The function `GetWordsByLetterHandler`. -/
def GetWordsByLetterHandler (lower : Char → Char) (w : ResponseWriter) (r : Request)
    (σ : World) : ResponseWriter × World :=
  if r.Method != http.MethodGet then
    (http.Error w "Invalid request method" http.StatusMethodNotAllowed, σ)
  else
    let letter := r.QueryGet "letter"
    if letter == "" then
      (http.Error w "Letter query parameter is required" http.StatusBadRequest, σ)
    else
      let letter := strings.ToLower lower letter
      let filteredWords := σ.dict.Words.entries.foldl (filterStep lower letter) GoMap.empty
      (w.Write (.json (Encode filteredWords)), σ)

/-- The map `readDictionary` rebuilds from the file `saveDictionary` wrote. -/
def reloaded (m : GoMap) : GoMap :=
  (sortedEntries m).foldl (fun acc e => acc.set e.1 e.2) GoMap.empty

/-- A store with the one entry of the tests, and no file yet. -/
def sampleWorld : World :=
  ⟨⟨GoMap.empty.set "test" "This is a test definition"⟩, .absent⟩

/-- A file that holds `{"a": "b", "c": 5}`. -/
def mistypedFile : File :=
  .present (some (.obj [("a", .str "b"), ("c", .num "5")]))

/-! ## Concurrent calls of `AddWordHandler`

Each call is a goroutine of its own. The calls modelled here are the ones of a
POST whose body decodes and whose file operations succeed. A call advances in
atomic steps; the steps of different calls interleave freely, except that
`dict.mu.Lock()` can only be taken while the mutex is free. `saveDictionary`
is split into its three effects: the truncating open, the marshalling of
`dict.Words` into the buffer of the encoder, and the write of that buffer. -/

/-- The point a call of `AddWordHandler` has reached. -/
inductive Pc where
  /-- about to check the method and decode the body -/
  | entry
  /-- about to call `dict.mu.Lock()` -/
  | atLock
  /-- holds the mutex, about to assign `dict.Words[req.Word]` -/
  | atStore
  /-- in `saveDictionary`, about to call `os.OpenFile` -/
  | atOpen
  /-- about to marshal `dict.Words` -/
  | atEncode
  /-- about to write the marshalled bytes `buf` to the file -/
  | atWrite (buf : JSON)
  /-- about to write status 200 and return, which runs the deferred `Unlock` -/
  | atReturn
  /-- returned -/
  | done

/-- The call holds the mutex. -/
def Pc.inCritical : Pc → Bool
  | .atStore => true
  | .atOpen => true
  | .atEncode => true
  | .atWrite _ => true
  | .atReturn => true
  | _ => false

/-- The call has made its assignment to `dict.Words`. -/
def Pc.stored : Pc → Bool
  | .atOpen => true
  | .atEncode => true
  | .atWrite _ => true
  | .atReturn => true
  | .done => true
  | _ => false

/-- The call has returned. -/
def Pc.isDone : Pc → Bool
  | .done => true
  | _ => false

/-- The number of steps the call still has to take. -/
def Pc.remaining : Pc → Nat
  | .entry => 7
  | .atLock => 6
  | .atStore => 5
  | .atOpen => 4
  | .atEncode => 3
  | .atWrite _ => 2
  | .atReturn => 1
  | .done => 0

/-- The server with its calls in flight: the shared state, whether `dict.mu` is
locked, and where call number `i` stands. -/
structure System where
  world : World
  locked : Bool
  pc : Nat → Pc

/-- The state in which the calls start: the mutex free, every call at its entry. -/
def System.init (σ : World) : System := ⟨σ, false, fun _ => .entry⟩

/-- One step of call `i`, whose body holds the pair `reqs[i]`; `none` when there
is no such call, when the call has returned, or when it waits for the mutex. -/
def step (reqs : List (String × String)) (i : Nat) (s : System) : Option System :=
  match reqs[i]? with
  | none => none
  | some e =>
    match s.pc i with
    | .entry => some { s with pc := Function.update s.pc i .atLock }
    | .atLock =>
      if s.locked then none
      else some { s with locked := true, pc := Function.update s.pc i .atStore }
    | .atStore =>
      some { s with
        world := { s.world with dict := ⟨s.world.dict.Words.set e.1 e.2⟩ },
        pc := Function.update s.pc i .atOpen }
    | .atOpen =>
      some { s with
        world := { s.world with file := .present none },
        pc := Function.update s.pc i .atEncode }
    | .atEncode =>
      some { s with pc := Function.update s.pc i (.atWrite (Encode s.world.dict.Words)) }
    | .atWrite buf =>
      some { s with
        world := { s.world with file := .present (some buf) },
        pc := Function.update s.pc i .atReturn }
    | .atReturn => some { s with locked := false, pc := Function.update s.pc i .done }
    | .done => none

/-- An interleaving: the calls step in the order of the schedule; `none` when
the schedule asks for a step that cannot be taken. -/
def run (reqs : List (String × String)) (s : System) : List Nat → Option System
  | [] => some s
  | i :: rest =>
    match step reqs i s with
    | none => none
    | some s' => run reqs s' rest

/-- Every call has returned. -/
def System.allDone (reqs : List (String × String)) (s : System) : Prop :=
  ∀ i, i < reqs.length → (s.pc i).isDone = true

/-- The steps the calls still have to take, all together. -/
def System.remaining (reqs : List (String × String)) (s : System) : Nat :=
  ∑ i ∈ Finset.range reqs.length, (s.pc i).remaining

/-- What holds in every state the calls can reach. -/
structure Inv (reqs : List (String × String)) (s : System) : Prop where
  /-- the mutex is locked exactly when some call is past `Lock` and not yet returned -/
  locked_iff : s.locked = true ↔ ∃ i, i < reqs.length ∧ (s.pc i).inCritical = true
  /-- at most one call holds the mutex -/
  unique : ∀ i j, i < reqs.length → j < reqs.length →
    (s.pc i).inCritical = true → (s.pc j).inCritical = true → i = j
  /-- the entry of a call that has made its assignment is in the store -/
  stored : ∀ i e, reqs[i]? = some e → (s.pc i).stored = true →
    s.world.dict.Words.get? e.1 = some e.2
  /-- a marshalled buffer is the encoding of the current store -/
  buf : ∀ i b, i < reqs.length → s.pc i = .atWrite b → b = Encode s.world.dict.Words
  /-- when a call is about to return, the file holds the current store -/
  ret : ∀ i, i < reqs.length → s.pc i = .atReturn →
    s.world.file = .present (some (Encode s.world.dict.Words))
  /-- when the mutex is free and a call has returned, the file holds the current store -/
  idle : s.locked = false → (∃ i, i < reqs.length ∧ (s.pc i).isDone = true) →
    s.world.file = .present (some (Encode s.world.dict.Words))

/-! ## Lemmas on Go maps -/

theorem find?_without_self (k : String) (l : List (String × String)) :
    (GoMap.without k l).find? (fun e => e.1 == k) = none := by
  simp [GoMap.without, List.find?_eq_none]

theorem find?_without_ne {k k' : String} (h : k' ≠ k) (l : List (String × String)) :
    (GoMap.without k l).find? (fun e => e.1 == k') = l.find? (fun e => e.1 == k') := by
  rw [GoMap.without, List.find?_filter]
  congr 1
  funext e
  by_cases he : e.1 = k'
  · have : ¬ e.1 = k := fun h' => h (he.symm.trans h')
    simp [he, h]
  · simp [he]

theorem GoMap.get?_empty (k : String) : GoMap.empty.get? k = none := rfl

theorem GoMap.get?_set_self (m : GoMap) (k v : String) : (m.set k v).get? k = some v := by
  simp [GoMap.get?, GoMap.set, List.find?_cons]

theorem GoMap.get?_set_ne (m : GoMap) {k k' : String} (v : String) (h : k' ≠ k) :
    (m.set k v).get? k' = m.get? k' := by
  have hk : ¬ k = k' := fun h' => h h'.symm
  simp [GoMap.get?, GoMap.set, List.find?_cons, hk, find?_without_ne h]

theorem GoMap.get?_delete_self (m : GoMap) (k : String) : (m.delete k).get? k = none := by
  simp [GoMap.get?, GoMap.delete, find?_without_self]

theorem GoMap.get?_delete_ne (m : GoMap) {k k' : String} (h : k' ≠ k) :
    (m.delete k).get? k' = m.get? k' := by
  simp [GoMap.get?, GoMap.delete, find?_without_ne h]

theorem GoMap.ext_entries {m m' : GoMap} (h : m.entries = m'.entries) : m = m' := by
  cases m; cases m'; cases h; rfl

theorem GoMap.delete_absent (m : GoMap) (k : String) (h : m.get? k = none) :
    m.delete k = m := by
  apply GoMap.ext_entries
  have h' : ∀ e ∈ m.entries, ¬ e.1 = k := by
    simpa [GoMap.get?, List.find?_eq_none] using h
  simp only [GoMap.delete, GoMap.without]
  rw [List.filter_eq_self]
  intro e he
  simpa using h' e he

/-- For a key-unique list the lookup finds exactly the entries of the list. -/
theorem GoMap.get?_eq_some_iff (m : GoMap) (k v : String) :
    m.get? k = some v ↔ (k, v) ∈ m.entries := by
  obtain ⟨l, hl⟩ := m
  simp only [GoMap.get?]
  induction l with
  | nil => simp
  | cons a t ih =>
    rw [List.map_cons, List.nodup_cons] at hl
    by_cases hak : a.1 = k
    · have hnot : (k, v) ∉ t := fun hm =>
        hl.1 (hak ▸ List.mem_map_of_mem Prod.fst hm)
      simp only [List.find?_cons, hak, beq_self_eq_true, Option.map_some', Option.some.injEq,
        List.mem_cons, hnot, or_false]
      constructor
      · intro h; exact Prod.ext hak.symm h.symm
      · intro h; rw [← h]
    · have hne : (k, v) ≠ a := fun h => hak (by rw [← h])
      have hb : (a.1 == k) = false := by simpa using hak
      simp only [List.find?_cons, hb, List.mem_cons, hne, false_or]
      exact ih hl.2

/-- Reordering a key-unique list does not change what a lookup finds. -/
theorem find?_key_perm {l l' : List (String × String)} (hp : l'.Perm l)
    (hl : (l.map Prod.fst).Nodup) (k : String) :
    (l'.find? (fun e => e.1 == k)).map Prod.snd = (l.find? (fun e => e.1 == k)).map Prod.snd := by
  have hl' : (l'.map Prod.fst).Nodup := (hp.map Prod.fst).nodup_iff.mpr hl
  have h := fun v => (GoMap.get?_eq_some_iff ⟨l', hl'⟩ k v).trans
    ((hp.mem_iff).trans (GoMap.get?_eq_some_iff ⟨l, hl⟩ k v).symm)
  exact Option.ext h

theorem sortedEntries_perm (m : GoMap) : (sortedEntries m).Perm m.entries :=
  List.perm_insertionSort _ _

/-- The object written for a map has, under each key, the string the map holds. -/
theorem Encode_member? (m : GoMap) (k : String) :
    (Encode m).member? k = (m.get? k).map JSON.str := by
  have h := find?_key_perm (sortedEntries_perm m) m.nodup k
  simp only [Encode, JSON.member?, GoMap.get?, List.find?_map, Option.map_map] at h ⊢
  have e1 : (Prod.snd ∘ fun e : String × String => (e.1, JSON.str e.2)) = JSON.str ∘ Prod.snd := rfl
  have e2 : ((fun e : String × JSON => e.1 == k) ∘ fun e : String × String => (e.1, JSON.str e.2))
      = fun e : String × String => e.1 == k := rfl
  rw [e1, e2, ← Option.map_map, h, Option.map_map]

theorem decodeAddReq_wellFormed (w d : String) :
    decodeAddReq (some (.obj [("word", .str w), ("definition", .str d)])) = .ok ⟨w, d⟩ := by
  have h1 : matchesField "word" "word" = true := by decide
  have h2 : matchesField "word" "definition" = false := by decide
  have h3 : matchesField "definition" "definition" = true := by decide
  simp [decodeAddReq, AddReq.storeMember, storeString, h1, h2, h3]

theorem decodeDeleteReq_wellFormed (w : String) :
    decodeDeleteReq (some (.obj [("word", .str w)])) = .ok ⟨w⟩ := by
  have h1 : matchesField "word" "word" = true := by decide
  simp [decodeDeleteReq, DeleteReq.storeMember, storeString, h1]

/-! ## Lemmas on responses -/

theorem status_WriteHeader_fresh (c : Nat) : (ResponseWriter.fresh.WriteHeader c).status = c := rfl

theorem status_Error_fresh (msg : String) (c : Nat) :
    (http.Error ResponseWriter.fresh msg c).status = c := rfl

/-- Once the header is written, nothing a handler does changes the status. -/
theorem status_WriteHeader_of_code {w : ResponseWriter} {c : Nat} (h : w.code = some c)
    (c' : Nat) : (w.WriteHeader c').code = some c := by
  simp [ResponseWriter.WriteHeader, h]

theorem status_Write_of_code {w : ResponseWriter} {c : Nat} (h : w.code = some c)
    (ch : Chunk) : (w.Write ch).code = some c := by
  simp [ResponseWriter.Write, ResponseWriter.WriteHeader, h]

theorem status_Error_of_code {w : ResponseWriter} {c : Nat} (h : w.code = some c)
    (msg : String) (c' : Nat) : (http.Error w msg c').code = some c :=
  status_Write_of_code (status_WriteHeader_of_code h c') _

theorem code_Error_fresh (msg : String) (c : Nat) :
    (http.Error ResponseWriter.fresh msg c).code = some c := rfl

/-! ## What each handler computes, branch by branch -/

theorem AddWordHandler_wrong_method (o : SaveOutcome) (w : ResponseWriter) (r : Request)
    (σ : World) (h : r.Method ≠ http.MethodPost) :
    AddWordHandler o w r σ
      = (http.Error w "Invalid request method" http.StatusMethodNotAllowed, σ) := by
  simp [AddWordHandler, h]

theorem AddWordHandler_bad_body (o : SaveOutcome) (w : ResponseWriter) (r : Request)
    (σ : World) (h : r.Method = http.MethodPost) {e : DecodeError}
    (hd : decodeAddReq r.Body = .error e) :
    AddWordHandler o w r σ = (http.Error w "Invalid request body" http.StatusBadRequest, σ) := by
  simp [AddWordHandler, h, hd]

theorem AddWordHandler_saved (w : ResponseWriter) (r : Request) (σ : World)
    (h : r.Method = http.MethodPost) {req : AddReq} (hd : decodeAddReq r.Body = .ok req) :
    AddWordHandler .ok w r σ
      = (w.WriteHeader http.StatusOK,
          ⟨⟨σ.dict.Words.set req.Word req.Definition⟩,
            .present (some (Encode (σ.dict.Words.set req.Word req.Definition)))⟩) := by
  simp [AddWordHandler, h, hd, saveDictionary]

theorem AddWordHandler_open_fails (w : ResponseWriter) (r : Request) (σ : World)
    (h : r.Method = http.MethodPost) {req : AddReq} (hd : decodeAddReq r.Body = .ok req) :
    AddWordHandler .openFails w r σ
      = (http.Error w "Error saving dictionary" http.StatusInternalServerError,
          ⟨⟨σ.dict.Words.set req.Word req.Definition⟩, σ.file⟩) := by
  simp [AddWordHandler, h, hd, saveDictionary]

theorem AddWordHandler_write_fails (left : Option JSON) (w : ResponseWriter) (r : Request)
    (σ : World) (h : r.Method = http.MethodPost) {req : AddReq}
    (hd : decodeAddReq r.Body = .ok req) :
    AddWordHandler (.writeFails left) w r σ
      = (http.Error w "Error saving dictionary" http.StatusInternalServerError,
          ⟨⟨σ.dict.Words.set req.Word req.Definition⟩, .present left⟩) := by
  simp [AddWordHandler, h, hd, saveDictionary]

/-- The writer `DeleteWordHandler` goes on with after its method check. -/
theorem DeleteWordHandler_bad_body (o : SaveOutcome) (w : ResponseWriter) (r : Request)
    (σ : World) {e : DecodeError} (hd : decodeDeleteReq r.Body = .error e) :
    DeleteWordHandler o w r σ
      = (http.Error (if r.Method != http.MethodPost then
            http.Error w "Invalid request method" http.StatusMethodNotAllowed else w)
          "Invalid request body" http.StatusBadRequest, σ) := by
  simp [DeleteWordHandler, hd]

theorem DeleteWordHandler_saved (w : ResponseWriter) (r : Request) (σ : World)
    {req : DeleteReq} (hd : decodeDeleteReq r.Body = .ok req) :
    DeleteWordHandler .ok w r σ
      = (ResponseWriter.WriteHeader (if r.Method != http.MethodPost then
            http.Error w "Invalid request method" http.StatusMethodNotAllowed else w)
          http.StatusOK,
          ⟨⟨σ.dict.Words.delete req.Word⟩,
            .present (some (Encode (σ.dict.Words.delete req.Word)))⟩) := by
  simp [DeleteWordHandler, hd, saveDictionary]

theorem DeleteWordHandler_open_fails (w : ResponseWriter) (r : Request) (σ : World)
    {req : DeleteReq} (hd : decodeDeleteReq r.Body = .ok req) :
    DeleteWordHandler .openFails w r σ
      = (http.Error (if r.Method != http.MethodPost then
            http.Error w "Invalid request method" http.StatusMethodNotAllowed else w)
          "Error saving dictionary" http.StatusInternalServerError,
          ⟨⟨σ.dict.Words.delete req.Word⟩, σ.file⟩) := by
  simp [DeleteWordHandler, hd, saveDictionary]

theorem DeleteWordHandler_write_fails (left : Option JSON) (w : ResponseWriter) (r : Request)
    (σ : World) {req : DeleteReq} (hd : decodeDeleteReq r.Body = .ok req) :
    DeleteWordHandler (.writeFails left) w r σ
      = (http.Error (if r.Method != http.MethodPost then
            http.Error w "Invalid request method" http.StatusMethodNotAllowed else w)
          "Error saving dictionary" http.StatusInternalServerError,
          ⟨⟨σ.dict.Words.delete req.Word⟩, .present left⟩) := by
  simp [DeleteWordHandler, hd, saveDictionary]

theorem GetWordsHandler_get (w : ResponseWriter) (r : Request) (σ : World)
    (h : r.Method = http.MethodGet) :
    GetWordsHandler w r σ = (w.Write (.json (Encode σ.dict.Words)), σ) := by
  simp [GetWordsHandler, h]

theorem GetWordsHandler_wrong_method (w : ResponseWriter) (r : Request) (σ : World)
    (h : r.Method ≠ http.MethodGet) :
    GetWordsHandler w r σ
      = (http.Error w "Invalid request method" http.StatusMethodNotAllowed, σ) := by
  simp [GetWordsHandler, h]

/-! ## The add, delete and get handlers -/

/-- C1: a POST to `AddWordHandler` with body `{"word": w, "definition": d}` whose
file write succeeds answers 200, and a following GET to `GetWordsHandler`
answers 200 with one JSON object that holds `d` under `w` and, under every other
key, exactly what the store held before the add. -/
theorem add_then_get (σ : World) (w d : String) (q q' : List (String × String))
    (b : Option JSON) :
    (AddWordHandler .ok .fresh
        ⟨http.MethodPost, some (.obj [("word", .str w), ("definition", .str d)]), q⟩ σ).1.status
      = 200
    ∧ ∃ v, (GetWordsHandler .fresh ⟨http.MethodGet, b, q'⟩
        (AddWordHandler .ok .fresh
          ⟨http.MethodPost, some (.obj [("word", .str w), ("definition", .str d)]), q⟩ σ).2).1
          = ⟨some 200, [.json v]⟩
      ∧ v.member? w = some (.str d)
      ∧ ∀ k, k ≠ w → v.member? k = (σ.dict.Words.get? k).map JSON.str := by
  rw [AddWordHandler_saved _ _ _ rfl (decodeAddReq_wellFormed w d), GetWordsHandler_get _ _ _ rfl]
  refine ⟨rfl, _, rfl, ?_, ?_⟩
  · rw [Encode_member?, GoMap.get?_set_self]; rfl
  · intro k hk
    rw [Encode_member?, GoMap.get?_set_ne _ _ hk]

/-- C3: a POST to `DeleteWordHandler` with body `{"word": w}` whose file write
succeeds answers 200, leaves `w` absent from the store and every other key as
it was; when `w` was absent the store is unchanged. -/
theorem delete_post (σ : World) (w : String) (q : List (String × String)) :
    (DeleteWordHandler .ok .fresh ⟨http.MethodPost, some (.obj [("word", .str w)]), q⟩ σ).1.status
      = 200
    ∧ (DeleteWordHandler .ok .fresh
        ⟨http.MethodPost, some (.obj [("word", .str w)]), q⟩ σ).2.dict.Words.get? w = none
    ∧ (∀ k, k ≠ w → (DeleteWordHandler .ok .fresh
        ⟨http.MethodPost, some (.obj [("word", .str w)]), q⟩ σ).2.dict.Words.get? k
          = σ.dict.Words.get? k)
    ∧ (σ.dict.Words.get? w = none → (DeleteWordHandler .ok .fresh
        ⟨http.MethodPost, some (.obj [("word", .str w)]), q⟩ σ).2.dict.Words = σ.dict.Words) := by
  rw [DeleteWordHandler_saved _ _ _ (decodeDeleteReq_wellFormed w)]
  refine ⟨rfl, GoMap.get?_delete_self _ _, fun k hk => GoMap.get?_delete_ne _ hk, ?_⟩
  intro h
  exact GoMap.delete_absent _ _ h

/-- C4: a POST to `AddWordHandler`, or to `DeleteWordHandler`, whose body fails
to decode answers 400 and leaves the whole state, store and file, as it was,
whatever a file write would have done. -/
theorem bad_body_rejected (o : SaveOutcome) (σ : World) (body : Option JSON)
    (q : List (String × String)) :
    ((∃ e, decodeAddReq body = .error e) →
      (AddWordHandler o .fresh ⟨http.MethodPost, body, q⟩ σ).1.status = 400
      ∧ (AddWordHandler o .fresh ⟨http.MethodPost, body, q⟩ σ).2 = σ)
    ∧ ((∃ e, decodeDeleteReq body = .error e) →
      (DeleteWordHandler o .fresh ⟨http.MethodPost, body, q⟩ σ).1.status = 400
      ∧ (DeleteWordHandler o .fresh ⟨http.MethodPost, body, q⟩ σ).2 = σ) := by
  constructor
  · rintro ⟨e, he⟩
    rw [AddWordHandler_bad_body o _ ⟨http.MethodPost, body, q⟩ σ rfl he]
    exact ⟨rfl, rfl⟩
  · rintro ⟨e, he⟩
    have he' : decodeDeleteReq (Request.mk http.MethodPost body q).Body = .error e := he
    rw [DeleteWordHandler_bad_body o _ _ σ he']
    exact ⟨rfl, rfl⟩

/-- The status of a response of `DeleteWordHandler` to a request that is not
a POST: the header written by the method check stays. -/
theorem DeleteWordHandler_code_wrong_method (o : SaveOutcome) (r : Request) (σ : World)
    (h : r.Method ≠ http.MethodPost) :
    (DeleteWordHandler o .fresh r σ).1.code = some http.StatusMethodNotAllowed := by
  have hw : (if r.Method != http.MethodPost then
      http.Error ResponseWriter.fresh "Invalid request method" http.StatusMethodNotAllowed
      else ResponseWriter.fresh).code = some http.StatusMethodNotAllowed := by
    simp [h, code_Error_fresh]
  cases hd : decodeDeleteReq r.Body with
  | error e =>
    rw [DeleteWordHandler_bad_body o _ _ _ hd]
    exact status_Error_of_code hw _ _
  | ok req =>
    cases o with
    | ok =>
      rw [DeleteWordHandler_saved _ _ _ hd]
      exact status_WriteHeader_of_code hw _
    | openFails =>
      rw [DeleteWordHandler_open_fails _ _ _ hd]
      exact status_Error_of_code hw _ _
    | writeFails left =>
      rw [DeleteWordHandler_write_fails left _ _ _ hd]
      exact status_Error_of_code hw _ _

/-- C5: whatever the body, the state and the outcome of a file write,
`GetWordsHandler` and `GetWordsByLetterHandler` answer 405 to a request that
is not a GET, and `AddWordHandler` and `DeleteWordHandler` answer 405 to a
request that is not a POST. -/
theorem wrong_method_status (lower : Char → Char) (o : SaveOutcome) (r : Request) (σ : World) :
    (r.Method ≠ http.MethodGet →
      (GetWordsHandler .fresh r σ).1.status = 405
      ∧ (GetWordsByLetterHandler lower .fresh r σ).1.status = 405)
    ∧ (r.Method ≠ http.MethodPost →
      (AddWordHandler o .fresh r σ).1.status = 405
      ∧ (DeleteWordHandler o .fresh r σ).1.status = 405) := by
  constructor
  · intro h
    constructor
    · rw [GetWordsHandler_wrong_method _ _ _ h]; rfl
    · simp only [GetWordsByLetterHandler, bne_iff_ne, ne_eq, h, not_false_eq_true, if_true]
      rfl
  · intro h
    constructor
    · rw [AddWordHandler_wrong_method _ _ _ _ h]; rfl
    · simp only [ResponseWriter.status, DeleteWordHandler_code_wrong_method o r σ h]
      rfl

/-- C7: when the file write of a well-formed POST fails, `AddWordHandler` and
`DeleteWordHandler` answer 500 and the store keeps the mutation: the added
entry is there, the deleted word is gone. -/
theorem save_failure_keeps_mutation (o : SaveOutcome) (r : Request) (σ : World)
    (ho : (saveDictionary o σ).2 ≠ none) (hm : r.Method = http.MethodPost) :
    (∀ req, decodeAddReq r.Body = .ok req →
      (AddWordHandler o .fresh r σ).1.status = 500
      ∧ (AddWordHandler o .fresh r σ).2.dict.Words = σ.dict.Words.set req.Word req.Definition
      ∧ (AddWordHandler o .fresh r σ).2.dict.Words.get? req.Word = some req.Definition)
    ∧ (∀ req, decodeDeleteReq r.Body = .ok req →
      (DeleteWordHandler o .fresh r σ).1.status = 500
      ∧ (DeleteWordHandler o .fresh r σ).2.dict.Words = σ.dict.Words.delete req.Word
      ∧ (DeleteWordHandler o .fresh r σ).2.dict.Words.get? req.Word = none) := by
  have hb : (r.Method != http.MethodPost) = false := by simp [hm]
  cases o with
  | ok => exact absurd rfl ho
  | openFails =>
    constructor
    · intro req hd
      rw [AddWordHandler_open_fails _ _ _ hm hd]
      exact ⟨rfl, rfl, GoMap.get?_set_self _ _ _⟩
    · intro req hd
      rw [DeleteWordHandler_open_fails _ _ _ hd, hb]
      exact ⟨rfl, rfl, GoMap.get?_delete_self _ _⟩
  | writeFails left =>
    constructor
    · intro req hd
      rw [AddWordHandler_write_fails left _ _ _ hm hd]
      exact ⟨rfl, rfl, GoMap.get?_set_self _ _ _⟩
    · intro req hd
      rw [DeleteWordHandler_write_fails left _ _ _ hd, hb]
      exact ⟨rfl, rfl, GoMap.get?_delete_self _ _⟩

/-! ## The prefix filter -/

/-- What the `range` loop of `GetWordsByLetterHandler` leaves under a key, for
every order in which the loop visits the entries. -/
theorem foldl_filterStep_get? (lower : Char → Char) (letter k : String) :
    ∀ (l : List (String × String)), (l.map Prod.fst).Nodup → ∀ acc : GoMap,
      (l.foldl (filterStep lower letter) acc).get? k =
        match l.find? (fun e => e.1 == k) with
        | some e => if strings.HasPrefix (strings.ToLower lower k) letter then some e.2
            else acc.get? k
        | none => acc.get? k := by
  intro l
  induction l with
  | nil => intro _ acc; rfl
  | cons a t ih =>
    intro hl acc
    rw [List.map_cons, List.nodup_cons] at hl
    rw [List.foldl_cons, ih hl.2]
    by_cases hak : a.1 = k
    · have hnone : t.find? (fun e => e.1 == k) = none := by
        rw [List.find?_eq_none]
        intro e he hek
        exact hl.1 (by
          have : e.1 = a.1 := (by simpa using hek : e.1 = k).trans hak.symm
          exact this ▸ List.mem_map_of_mem Prod.fst he)
      have hb : (a.1 == k) = true := by simpa using hak
      simp only [hnone, List.find?_cons, hb]
      by_cases hp : strings.HasPrefix (strings.ToLower lower k) letter = true
      · have hp' : strings.HasPrefix (strings.ToLower lower a.1) letter = true := hak ▸ hp
        simp only [filterStep, hp', hp, if_true]
        rw [← hak]
        exact GoMap.get?_set_self _ _ _
      · have hp' : ¬ strings.HasPrefix (strings.ToLower lower a.1) letter = true := hak ▸ hp
        simp [filterStep, hp', hp]
    · have hb : (a.1 == k) = false := by simpa using hak
      have hstep : (filterStep lower letter acc a).get? k = acc.get? k := by
        unfold filterStep
        split
        · exact GoMap.get?_set_ne _ _ (fun h => hak h.symm)
        · rfl
      simp only [List.find?_cons, hb, hstep]

/-- The map `filteredWords` at the end of the loop. -/
theorem filteredWords_get? (lower : Char → Char) (letter : String) (m : GoMap) (k : String) :
    (m.entries.foldl (filterStep lower letter) GoMap.empty).get? k =
      if strings.HasPrefix (strings.ToLower lower k) letter then m.get? k else none := by
  rw [foldl_filterStep_get? lower letter k m.entries m.nodup]
  simp only [GoMap.get?, GoMap.get?_empty]
  cases hf : m.entries.find? (fun e => e.1 == k) with
  | none => simp [GoMap.empty]
  | some e => simp [GoMap.empty]

/-- A map in which no key is found has no entry. -/
theorem GoMap.entries_eq_nil_of_get? (m : GoMap) (h : ∀ k, m.get? k = none) :
    m.entries = [] := by
  cases hm : m.entries with
  | nil => rfl
  | cons a t =>
    have := (GoMap.get?_eq_some_iff m a.1 a.2).mpr (by rw [hm]; exact List.mem_cons_self _ _)
    rw [h a.1] at this
    exact absurd this (by simp)

theorem Encode_of_entries_nil {m : GoMap} (h : m.entries = []) : Encode m = .obj [] := by
  simp [Encode, sortedEntries, h]

/-- C2: for a GET to `GetWordsByLetterHandler`, with `q` the value of the query
parameter `letter` (empty when the parameter is absent): if `q` is empty the
answer is 400; otherwise the answer is 200 with the encoding of a map that
holds `definition` under `word` exactly when the store does and the lowered
`word` starts with the lowered `q`; when no stored word matches, the object
returned is empty. -/
theorem get_by_letter (lower : Char → Char) (σ : World) (b : Option JSON)
    (query : List (String × String)) :
    ((Request.mk http.MethodGet b query).QueryGet "letter" = "" →
      (GetWordsByLetterHandler lower .fresh ⟨http.MethodGet, b, query⟩ σ).1.status = 400)
    ∧ ((Request.mk http.MethodGet b query).QueryGet "letter" ≠ "" →
      ∃ m : GoMap,
        (GetWordsByLetterHandler lower .fresh ⟨http.MethodGet, b, query⟩ σ).1
          = ⟨some 200, [.json (Encode m)]⟩
        ∧ (∀ word definition, m.get? word = some definition ↔
            (σ.dict.Words.get? word = some definition
              ∧ strings.HasPrefix (strings.ToLower lower word)
                  (strings.ToLower lower ((Request.mk http.MethodGet b query).QueryGet "letter"))
                = true))
        ∧ ((∀ word definition, σ.dict.Words.get? word = some definition →
              strings.HasPrefix (strings.ToLower lower word)
                  (strings.ToLower lower ((Request.mk http.MethodGet b query).QueryGet "letter"))
                = false) →
            Encode m = .obj [])) := by
  have hg : (http.MethodGet != http.MethodGet) = false := by decide
  constructor
  · intro hq
    simp only [GetWordsByLetterHandler, hg, hq]
    rfl
  · intro hq
    have hq' : ((Request.mk http.MethodGet b query).QueryGet "letter" == "") = false := by
      simpa using hq
    refine ⟨σ.dict.Words.entries.foldl (filterStep lower (strings.ToLower lower
      ((Request.mk http.MethodGet b query).QueryGet "letter"))) GoMap.empty, ?_, ?_, ?_⟩
    · simp only [GetWordsByLetterHandler, hg, hq']
      rfl
    · intro word definition
      rw [filteredWords_get?]
      by_cases hp : strings.HasPrefix (strings.ToLower lower word) (strings.ToLower lower
          ((Request.mk http.MethodGet b query).QueryGet "letter")) = true
      · simp [hp]
      · simp [hp]
    · intro hno
      apply Encode_of_entries_nil
      apply GoMap.entries_eq_nil_of_get?
      intro k
      rw [filteredWords_get?]
      cases hk : σ.dict.Words.get? k with
      | none => simp
      | some v => simp [hno k v hk]

/-! ## Saving and loading -/

/-- Storing the members of an encoded map: no type error, one assignment per
entry. -/
theorem foldl_storeMember_encoded (l : List (String × String)) :
    ∀ acc : GoMap, (l.map (fun e => (e.1, JSON.str e.2))).foldl storeMember (acc, false)
      = (l.foldl (fun acc e => acc.set e.1 e.2) acc, false) := by
  induction l with
  | nil => intro acc; rfl
  | cons a t ih =>
    intro acc
    rw [List.map_cons, List.foldl_cons, List.foldl_cons]
    exact ih _

theorem foldl_set_get? (k : String) :
    ∀ (l : List (String × String)), (l.map Prod.fst).Nodup → ∀ acc : GoMap,
      (l.foldl (fun acc e => acc.set e.1 e.2) acc).get? k =
        match l.find? (fun e => e.1 == k) with
        | some e => some e.2
        | none => acc.get? k := by
  intro l
  induction l with
  | nil => intro _ acc; rfl
  | cons a t ih =>
    intro hl acc
    rw [List.map_cons, List.nodup_cons] at hl
    rw [List.foldl_cons, ih hl.2]
    by_cases hak : a.1 = k
    · have hnone : t.find? (fun e => e.1 == k) = none := by
        rw [List.find?_eq_none]
        intro e he hek
        exact hl.1 (by
          have : e.1 = a.1 := (by simpa using hek : e.1 = k).trans hak.symm
          exact this ▸ List.mem_map_of_mem Prod.fst he)
      have hb : (a.1 == k) = true := by simpa using hak
      simp only [hnone, List.find?_cons, hb]
      rw [← hak]
      exact GoMap.get?_set_self _ _ _
    · have hb : (a.1 == k) = false := by simpa using hak
      simp only [List.find?_cons, hb]
      rw [GoMap.get?_set_ne _ _ (fun h => hak h.symm)]

theorem unmarshalMap_Encode (m : GoMap) :
    unmarshalMap (some (Encode m)) none = (some (reloaded m), none) := by
  simp only [unmarshalMap, Encode, Option.getD_none, foldl_storeMember_encoded]
  rfl

theorem reloaded_get? (m : GoMap) (k : String) : (reloaded m).get? k = m.get? k := by
  have hn : ((sortedEntries m).map Prod.fst).Nodup :=
    ((sortedEntries_perm m).map Prod.fst).nodup_iff.mpr m.nodup
  have h := find?_key_perm (sortedEntries_perm m) m.nodup k
  rw [reloaded, foldl_set_get? k _ hn]
  change _ = Option.map Prod.snd (List.find? (fun e => e.1 == k) m.entries)
  rw [← h]
  cases (sortedEntries m).find? (fun e => e.1 == k) <;> rfl

/-- Two maps with the same lookups have the same entries. -/
theorem GoMap.perm_of_get? {m m' : GoMap} (h : ∀ k, m.get? k = m'.get? k) :
    m.entries.Perm m'.entries := by
  have n1 : m.entries.Nodup := List.Nodup.of_map _ m.nodup
  have n2 : m'.entries.Nodup := List.Nodup.of_map _ m'.nodup
  rw [List.perm_ext_iff_of_nodup n1 n2]
  intro e
  rw [← GoMap.get?_eq_some_iff m e.1 e.2, ← GoMap.get?_eq_some_iff m' e.1 e.2, h]

theorem readDictionary_saved (m : GoMap) :
    readDictionary (.present (some (Encode m))) = (some (reloaded m), none) := by
  simp only [readDictionary, unmarshalMap_Encode]

theorem main_saved (m : GoMap) :
    main (.present (some (Encode m))) = (⟨⟨reloaded m⟩, .present (some (Encode m))⟩, none) := by
  simp only [main, readDictionary_saved]

/-- What a 200 of `AddWordHandler` tells. -/
theorem AddWordHandler_status_ok (o : SaveOutcome) (r : Request) (σ : World)
    (h : (AddWordHandler o .fresh r σ).1.status = 200) :
    ∃ req, decodeAddReq r.Body = .ok req
      ∧ (AddWordHandler o .fresh r σ).2
          = ⟨⟨σ.dict.Words.set req.Word req.Definition⟩,
              .present (some (Encode (σ.dict.Words.set req.Word req.Definition)))⟩ := by
  by_cases hm : r.Method = http.MethodPost
  · cases hd : decodeAddReq r.Body with
    | error e =>
      rw [AddWordHandler_bad_body o _ _ _ hm hd] at h
      exact absurd (show (400 : Nat) = 200 from h) (by decide)
    | ok req =>
      cases o with
      | ok => exact ⟨req, rfl, by rw [AddWordHandler_saved _ _ _ hm hd]⟩
      | openFails =>
        rw [AddWordHandler_open_fails _ _ _ hm hd] at h
        exact absurd (show (500 : Nat) = 200 from h) (by decide)
      | writeFails left =>
        rw [AddWordHandler_write_fails left _ _ _ hm hd] at h
        exact absurd (show (500 : Nat) = 200 from h) (by decide)
  · rw [AddWordHandler_wrong_method o _ _ _ hm] at h
    exact absurd (show (405 : Nat) = 200 from h) (by decide)

/-- What a 200 of `DeleteWordHandler` tells. -/
theorem DeleteWordHandler_status_ok (o : SaveOutcome) (r : Request) (σ : World)
    (h : (DeleteWordHandler o .fresh r σ).1.status = 200) :
    ∃ req, decodeDeleteReq r.Body = .ok req
      ∧ (DeleteWordHandler o .fresh r σ).2
          = ⟨⟨σ.dict.Words.delete req.Word⟩,
              .present (some (Encode (σ.dict.Words.delete req.Word)))⟩ := by
  by_cases hm : r.Method = http.MethodPost
  · have hb : (r.Method != http.MethodPost) = false := by simp [hm]
    cases hd : decodeDeleteReq r.Body with
    | error e =>
      rw [DeleteWordHandler_bad_body o _ _ _ hd, hb] at h
      exact absurd (show (400 : Nat) = 200 from h) (by decide)
    | ok req =>
      cases o with
      | ok => exact ⟨req, rfl, by rw [DeleteWordHandler_saved _ _ _ hd]⟩
      | openFails =>
        rw [DeleteWordHandler_open_fails _ _ _ hd, hb] at h
        exact absurd (show (500 : Nat) = 200 from h) (by decide)
      | writeFails left =>
        rw [DeleteWordHandler_write_fails left _ _ _ hd, hb] at h
        exact absurd (show (500 : Nat) = 200 from h) (by decide)
  · have hc := DeleteWordHandler_code_wrong_method o r σ hm
    rw [ResponseWriter.status, hc] at h
    exact absurd (show (405 : Nat) = 200 from h) (by decide)

/-- C6: whenever `AddWordHandler`, or `DeleteWordHandler`, answers 200, the
file it leaves reads back with `readDictionary`, without error, as a map with
the lookups and the entries of the store it leaves, and `main` starts from
that file with this map; after a 200 of `AddWordHandler` for `req`, the store
`main` starts with holds `req.Definition` under `req.Word`. -/
theorem saved_file_reads_back (o : SaveOutcome) (r : Request) (σ : World) :
    ((AddWordHandler o .fresh r σ).1.status = 200 →
      ∃ m, readDictionary (AddWordHandler o .fresh r σ).2.file = (some m, none)
        ∧ (∀ k, m.get? k = (AddWordHandler o .fresh r σ).2.dict.Words.get? k)
        ∧ m.entries.Perm (AddWordHandler o .fresh r σ).2.dict.Words.entries
        ∧ main (AddWordHandler o .fresh r σ).2.file
            = (⟨⟨m⟩, (AddWordHandler o .fresh r σ).2.file⟩, none)
        ∧ ∀ req, decodeAddReq r.Body = .ok req →
            (main (AddWordHandler o .fresh r σ).2.file).1.dict.Words.get? req.Word
              = some req.Definition)
    ∧ ((DeleteWordHandler o .fresh r σ).1.status = 200 →
      ∃ m, readDictionary (DeleteWordHandler o .fresh r σ).2.file = (some m, none)
        ∧ (∀ k, m.get? k = (DeleteWordHandler o .fresh r σ).2.dict.Words.get? k)
        ∧ m.entries.Perm (DeleteWordHandler o .fresh r σ).2.dict.Words.entries
        ∧ main (DeleteWordHandler o .fresh r σ).2.file
            = (⟨⟨m⟩, (DeleteWordHandler o .fresh r σ).2.file⟩, none)) := by
  constructor
  · intro h
    obtain ⟨req, hd, hw⟩ := AddWordHandler_status_ok o r σ h
    rw [hw]
    refine ⟨reloaded _, readDictionary_saved _, reloaded_get? _,
      GoMap.perm_of_get? (reloaded_get? _), main_saved _, ?_⟩
    intro req' hd'
    rw [hd] at hd'
    cases hd'
    rw [main_saved]
    exact (reloaded_get? _ _).trans (GoMap.get?_set_self _ _ _)
  · intro h
    obtain ⟨req, hd, hw⟩ := DeleteWordHandler_status_ok o r σ h
    rw [hw]
    exact ⟨reloaded _, readDictionary_saved _, reloaded_get? _,
      GoMap.perm_of_get? (reloaded_get? _), main_saved _⟩

/-! ## Start-up -/

/-- The start-up of `cmd/main.go`: a missing file gives an empty store and no
error; a file that cannot be opened or read, or whose content `Unmarshal`
rejects, gives an error and an empty store. -/
theorem main_load :
    main .absent = (⟨⟨GoMap.empty⟩, .absent⟩, none)
    ∧ main .noAccess = (⟨⟨GoMap.empty⟩, .noAccess⟩, some .io)
    ∧ main .unreadable = (⟨⟨GoMap.empty⟩, .unreadable⟩, some .io)
    ∧ ∀ doc e, (unmarshalMap doc none).2 = some e →
        main (.present doc) = (⟨⟨GoMap.empty⟩, .present doc⟩, some (.decode e)) := by
  refine ⟨rfl, rfl, rfl, ?_⟩
  intro doc e h
  have hr : readDictionary (.present doc) = (none, some (.decode e)) := by
    simp only [readDictionary]
    cases hu : unmarshalMap doc none with
    | mk m err =>
      rw [hu] at h
      cases h
      rfl
  simp only [main, hr]

/-- C8: the start-up of the top-level `main.go` on a file holding
`{"a": "b", "c": 5}`: `loadDictionary` returns a type error, and the store the
server starts with holds the entries decoded from the file, `b` under `a`
among them. -/
theorem TopLevel_load_keeps_entries :
    (TopLevel.main mistypedFile).2 = some (.decode .typeError)
    ∧ ∃ m, (TopLevel.main mistypedFile).1 = some m
      ∧ m.get? "a" = some "b" ∧ m.get? "c" = some "" ∧ m.entries.length = 2 :=
  ⟨rfl, _, rfl, rfl, rfl, rfl⟩

/-- The same file at the start-up of `cmd/main.go`: an error and an empty store. -/
theorem main_mistypedFile :
    main mistypedFile = (⟨⟨GoMap.empty⟩, mistypedFile⟩, some (.decode .typeError)) :=
  main_load.2.2.2 _ _ rfl

/-! ## Requests with the wrong method -/

/-- C10: a DELETE request to `DeleteWordHandler` with body `{"word": "test"}`
on a store that holds `test` and has no file: the answer is 405, and yet the
word is deleted from the store and the file is written. -/
theorem delete_wrong_method_mutates :
    (DeleteWordHandler .ok .fresh ⟨"DELETE", some (.obj [("word", .str "test")]), []⟩
        sampleWorld).1.status = 405
    ∧ sampleWorld.dict.Words.get? "test" = some "This is a test definition"
    ∧ sampleWorld.file = .absent
    ∧ (DeleteWordHandler .ok .fresh ⟨"DELETE", some (.obj [("word", .str "test")]), []⟩
        sampleWorld).2.dict.Words.get? "test" = none
    ∧ (DeleteWordHandler .ok .fresh ⟨"DELETE", some (.obj [("word", .str "test")]), []⟩
        sampleWorld).2.file = .present (some (.obj [])) :=
  ⟨rfl, rfl, rfl, rfl, rfl⟩

/-- The three other handlers, and `DeleteWordHandler` on a body that does not
decode, leave the state alone when the method is wrong. -/
theorem wrong_method_no_effect (lower : Char → Char) (o : SaveOutcome) (r : Request)
    (σ : World) :
    (r.Method ≠ http.MethodPost → (AddWordHandler o .fresh r σ).2 = σ)
    ∧ (r.Method ≠ http.MethodGet → (GetWordsHandler .fresh r σ).2 = σ)
    ∧ (r.Method ≠ http.MethodGet → (GetWordsByLetterHandler lower .fresh r σ).2 = σ)
    ∧ (∀ e, decodeDeleteReq r.Body = .error e → (DeleteWordHandler o .fresh r σ).2 = σ) := by
  refine ⟨?_, ?_, ?_, ?_⟩
  · intro h; rw [AddWordHandler_wrong_method _ _ _ _ h]
  · intro h; rw [GetWordsHandler_wrong_method _ _ _ h]
  · intro h
    simp only [GetWordsByLetterHandler, bne_iff_ne, ne_eq, h, not_false_eq_true, if_true]
  · intro e h; rw [DeleteWordHandler_bad_body _ _ _ _ h]

/-! ## The theorems at concrete requests -/

theorem add_then_get_witness :
    (AddWordHandler .ok .fresh
        ⟨http.MethodPost, some (.obj [("word", .str "cat"), ("definition", .str "felis")]), []⟩
        sampleWorld).1.status = 200
    ∧ ∃ v, (GetWordsHandler .fresh ⟨http.MethodGet, none, []⟩
        (AddWordHandler .ok .fresh
          ⟨http.MethodPost, some (.obj [("word", .str "cat"), ("definition", .str "felis")]), []⟩
          sampleWorld).2).1 = ⟨some 200, [.json v]⟩
      ∧ v.member? "cat" = some (.str "felis")
      ∧ v.member? "test" = some (.str "This is a test definition") := by
  obtain ⟨h1, v, h2, h3, h4⟩ := add_then_get sampleWorld "cat" "felis" [] [] none
  exact ⟨h1, v, h2, h3, h4 "test" (by decide)⟩

theorem delete_post_witness :
    sampleWorld.dict.Words.get? "cat" = none
    ∧ (DeleteWordHandler .ok .fresh ⟨http.MethodPost, some (.obj [("word", .str "cat")]), []⟩
        sampleWorld).1.status = 200
    ∧ (DeleteWordHandler .ok .fresh ⟨http.MethodPost, some (.obj [("word", .str "cat")]), []⟩
        sampleWorld).2.dict.Words.get? "test" = sampleWorld.dict.Words.get? "test"
    ∧ (DeleteWordHandler .ok .fresh ⟨http.MethodPost, some (.obj [("word", .str "cat")]), []⟩
        sampleWorld).2.dict.Words = sampleWorld.dict.Words := by
  obtain ⟨h1, _, h3, h4⟩ := delete_post sampleWorld "cat" []
  exact ⟨rfl, h1, h3 "test" (by decide), h4 rfl⟩

theorem bad_body_rejected_witness :
    (decodeAddReq (some (.str "invalid json")) = .error .typeError
      ∧ (AddWordHandler .ok .fresh ⟨http.MethodPost, some (.str "invalid json"), []⟩
          sampleWorld).1.status = 400
      ∧ (AddWordHandler .ok .fresh ⟨http.MethodPost, some (.str "invalid json"), []⟩
          sampleWorld).2 = sampleWorld)
    ∧ (decodeDeleteReq none = .error .syntaxError
      ∧ (DeleteWordHandler .ok .fresh ⟨http.MethodPost, none, []⟩ sampleWorld).1.status = 400
      ∧ (DeleteWordHandler .ok .fresh ⟨http.MethodPost, none, []⟩ sampleWorld).2 = sampleWorld) :=
  ⟨⟨rfl, (bad_body_rejected .ok sampleWorld (some (.str "invalid json")) []).1 ⟨_, rfl⟩⟩,
    ⟨rfl, (bad_body_rejected .ok sampleWorld none []).2 ⟨_, rfl⟩⟩⟩

theorem wrong_method_status_witness :
    ("PUT" ≠ http.MethodGet ∧ "PUT" ≠ http.MethodPost)
    ∧ ((GetWordsHandler .fresh ⟨"PUT", some (.obj [("word", .str "test")]), []⟩
          sampleWorld).1.status = 405
      ∧ (GetWordsByLetterHandler id .fresh ⟨"PUT", some (.obj [("word", .str "test")]), []⟩
          sampleWorld).1.status = 405)
    ∧ ((AddWordHandler .ok .fresh ⟨"PUT", some (.obj [("word", .str "test")]), []⟩
          sampleWorld).1.status = 405
      ∧ (DeleteWordHandler .ok .fresh ⟨"PUT", some (.obj [("word", .str "test")]), []⟩
          sampleWorld).1.status = 405) :=
  ⟨⟨by decide, by decide⟩,
    (wrong_method_status id .ok ⟨"PUT", some (.obj [("word", .str "test")]), []⟩
      sampleWorld).1 (by decide),
    (wrong_method_status id .ok ⟨"PUT", some (.obj [("word", .str "test")]), []⟩
      sampleWorld).2 (by decide)⟩

theorem save_failure_keeps_mutation_witness :
    (saveDictionary .openFails sampleWorld).2 ≠ none
    ∧ decodeDeleteReq (some (.obj [("word", .str "test")])) = .ok ⟨"test"⟩
    ∧ (DeleteWordHandler .openFails .fresh
        ⟨http.MethodPost, some (.obj [("word", .str "test")]), []⟩ sampleWorld).1.status = 500
    ∧ (DeleteWordHandler .openFails .fresh
        ⟨http.MethodPost, some (.obj [("word", .str "test")]), []⟩ sampleWorld).2.dict.Words.get?
          "test" = none := by
  have h := (save_failure_keeps_mutation .openFails
    ⟨http.MethodPost, some (.obj [("word", .str "test")]), []⟩ sampleWorld
    (by simp [saveDictionary]) rfl).2 ⟨"test"⟩ rfl
  exact ⟨by simp [saveDictionary], rfl, h.1, h.2.2⟩

theorem get_by_letter_witness :
    (Request.mk http.MethodGet none []).QueryGet "letter" = ""
    ∧ (GetWordsByLetterHandler id .fresh ⟨http.MethodGet, none, []⟩ sampleWorld).1.status = 400
    ∧ (Request.mk http.MethodGet none [("letter", "T")]).QueryGet "letter" ≠ ""
    ∧ ∃ m : GoMap,
        (GetWordsByLetterHandler id .fresh ⟨http.MethodGet, none, [("letter", "T")]⟩
          sampleWorld).1 = ⟨some 200, [.json (Encode m)]⟩
        ∧ m.get? "test" = some "This is a test definition" := by
  have h := get_by_letter id sampleWorld none
  obtain ⟨m, h1, h2, _⟩ := (h [("letter", "T")]).2 (by decide)
  exact ⟨rfl, (h []).1 rfl, by decide, m, h1, (h2 _ _).mpr ⟨rfl, by decide⟩⟩

theorem saved_file_reads_back_witness :
    (AddWordHandler .ok .fresh
        ⟨http.MethodPost, some (.obj [("word", .str "cat"), ("definition", .str "felis")]), []⟩
        sampleWorld).1.status = 200
    ∧ (main (AddWordHandler .ok .fresh
        ⟨http.MethodPost, some (.obj [("word", .str "cat"), ("definition", .str "felis")]), []⟩
        sampleWorld).2.file).1.dict.Words.get? "cat" = some "felis" := by
  obtain ⟨m, _, _, _, _, h⟩ := (saved_file_reads_back .ok
    ⟨http.MethodPost, some (.obj [("word", .str "cat"), ("definition", .str "felis")]), []⟩
    sampleWorld).1 rfl
  exact ⟨rfl, h ⟨"cat", "felis"⟩ rfl⟩

/-! ## Concurrent adds -/

/-- Calls with different numbers carry different words. -/
theorem words_distinct {reqs : List (String × String)} (hd : (reqs.map Prod.fst).Nodup)
    {i j : Nat} {e e' : String × String} (hi : reqs[i]? = some e) (hj : reqs[j]? = some e')
    (hne : j ≠ i) : e'.1 ≠ e.1 := by
  intro heq
  have h1 : (reqs.map Prod.fst)[i]? = some e.1 := by rw [List.getElem?_map, hi]; rfl
  have h2 : (reqs.map Prod.fst)[j]? = some e.1 := by rw [List.getElem?_map, hj, ← heq]; rfl
  exact hne (List.getElem?_inj (List.getElem?_eq_some.mp h2).1 hd (h2.trans h1.symm))

theorem Inv_init (reqs : List (String × String)) (σ : World) : Inv reqs (System.init σ) where
  locked_iff := by
    constructor
    · intro h; cases h
    · rintro ⟨i, _, h⟩; cases h
  unique := by intro i j _ _ h; cases h
  stored := by intro i e _ h; cases h
  buf := by intro i b _ h; cases h
  ret := by intro i _ h; cases h
  idle := by rintro _ ⟨i, _, h⟩; cases h

/-- A step that only moves call `i` between two points outside the critical
section keeps the invariant. -/
theorem Inv_entry {reqs : List (String × String)} {s : System} {i : Nat}
    (hinv : Inv reqs s) (hpc : s.pc i = .entry) :
    Inv reqs { s with pc := Function.update s.pc i .atLock } where
  locked_iff := by
    rw [hinv.locked_iff]
    constructor
    · rintro ⟨j, hj, hc⟩
      refine ⟨j, hj, ?_⟩
      by_cases hji : j = i
      · rw [hji, hpc] at hc; cases hc
      · simpa [Function.update_noteq hji] using hc
    · rintro ⟨j, hj, hc⟩
      refine ⟨j, hj, ?_⟩
      by_cases hji : j = i
      · subst hji; simp [Pc.inCritical] at hc
      · simpa [Function.update_noteq hji] using hc
  unique := by
    intro j k hj hk hcj hck
    have hj' : (s.pc j).inCritical = true := by
      by_cases hji : j = i
      · subst hji; simp [Pc.inCritical] at hcj
      · simpa [Function.update_noteq hji] using hcj
    have hk' : (s.pc k).inCritical = true := by
      by_cases hki : k = i
      · subst hki; simp [Pc.inCritical] at hck
      · simpa [Function.update_noteq hki] using hck
    exact hinv.unique j k hj hk hj' hk'
  stored := by
    intro j e he hst
    by_cases hji : j = i
    · subst hji; simp [Pc.stored] at hst
    · exact hinv.stored j e he (by simpa [Function.update_noteq hji] using hst)
  buf := by
    intro j b hj hb
    by_cases hji : j = i
    · subst hji; simp at hb
    · exact hinv.buf j b hj (by simpa [Function.update_noteq hji] using hb)
  ret := by
    intro j hj hr
    by_cases hji : j = i
    · subst hji; simp at hr
    · exact hinv.ret j hj (by simpa [Function.update_noteq hji] using hr)
  idle := by
    rintro hl ⟨j, hj, hdn⟩
    by_cases hji : j = i
    · subst hji; simp [Pc.isDone] at hdn
    · exact hinv.idle hl ⟨j, hj, by simpa [Function.update_noteq hji] using hdn⟩

theorem crit_update (pc : Nat → Pc) (i : Nat) (p : Pc)
    (h : p.inCritical = (pc i).inCritical) (j : Nat) :
    (Function.update pc i p j).inCritical = (pc j).inCritical := by
  by_cases hji : j = i
  · subst hji; simp [h]
  · simp [Function.update_noteq hji]

theorem stored_update (pc : Nat → Pc) (i : Nat) (p : Pc)
    (h : p.stored = (pc i).stored) (j : Nat) :
    (Function.update pc i p j).stored = (pc j).stored := by
  by_cases hji : j = i
  · subst hji; simp [h]
  · simp [Function.update_noteq hji]

/-- Taking the free mutex. -/
theorem Inv_lock {reqs : List (String × String)} {s : System} {i : Nat}
    (hinv : Inv reqs s) (hlt : i < reqs.length) (hl : s.locked = false) :
    Inv reqs { s with locked := true, pc := Function.update s.pc i .atStore } := by
  have hfree : ∀ j, j < reqs.length → (s.pc j).inCritical = true → False := by
    intro j hj hc
    rw [hinv.locked_iff.mpr ⟨j, hj, hc⟩] at hl
    cases hl
  have honly : ∀ j, j < reqs.length →
      (Function.update s.pc i Pc.atStore j).inCritical = true → j = i := by
    intro j hj hc
    by_contra hji
    rw [Function.update_noteq hji] at hc
    exact hfree j hj hc
  exact {
    locked_iff := ⟨fun _ => ⟨i, hlt, by simp [Pc.inCritical]⟩, fun _ => rfl⟩
    unique := fun j k hj hk hcj hck => (honly j hj hcj).trans (honly k hk hck).symm
    stored := by
      intro j e he hst
      by_cases hji : j = i
      · subst hji; simp [Pc.stored] at hst
      · exact hinv.stored j e he (by simpa [Function.update_noteq hji] using hst)
    buf := by
      intro j b hj hb
      by_cases hji : j = i
      · subst hji; simp at hb
      · exact hinv.buf j b hj (by simpa [Function.update_noteq hji] using hb)
    ret := by
      intro j hj hr
      by_cases hji : j = i
      · subst hji; simp at hr
      · exact hinv.ret j hj (by simpa [Function.update_noteq hji] using hr)
    idle := by intro h; cases h }

/-- The assignment `dict.Words[req.Word] = req.Definition` under the mutex. -/
theorem Inv_store {reqs : List (String × String)} (hd : (reqs.map Prod.fst).Nodup)
    {s : System} {i : Nat} {e : String × String}
    (hinv : Inv reqs s) (hi : reqs[i]? = some e) (hpc : s.pc i = .atStore) :
    Inv reqs { s with
      world := { s.world with dict := ⟨s.world.dict.Words.set e.1 e.2⟩ },
      pc := Function.update s.pc i .atOpen } := by
  have hlt : i < reqs.length := (List.getElem?_eq_some.mp hi).1
  have hci : (s.pc i).inCritical = true := by rw [hpc]; rfl
  have hc : ∀ j, (Function.update s.pc i Pc.atOpen j).inCritical = (s.pc j).inCritical :=
    crit_update _ _ _ (by rw [hpc]; rfl)
  have hother : ∀ j, j < reqs.length → j ≠ i → (s.pc j).inCritical = true → False :=
    fun j hj hji hcj => hji (hinv.unique j i hj hlt hcj hci)
  exact {
    locked_iff := by simpa only [hc] using hinv.locked_iff
    unique := by simpa only [hc] using hinv.unique
    stored := by
      intro j e' he hst
      by_cases hji : j = i
      · subst hji
        rw [hi] at he
        cases he
        exact GoMap.get?_set_self _ _ _
      · simp only [Function.update_noteq hji] at hst
        have hold := hinv.stored j e' he hst
        have hne : e'.1 ≠ e.1 := words_distinct hd hi he hji
        exact (GoMap.get?_set_ne _ _ hne).trans hold
    buf := by
      intro j b hj hb
      by_cases hji : j = i
      · subst hji; simp at hb
      · simp only [Function.update_noteq hji] at hb
        exact (hother j hj hji (by rw [hb]; rfl)).elim
    ret := by
      intro j hj hr
      by_cases hji : j = i
      · subst hji; simp at hr
      · simp only [Function.update_noteq hji] at hr
        exact (hother j hj hji (by rw [hr]; rfl)).elim
    idle := by
      intro hl
      have : s.locked = true := hinv.locked_iff.mpr ⟨i, hlt, hci⟩
      rw [this] at hl
      cases hl }

/-- The truncating open of `saveDictionary` under the mutex. -/
theorem Inv_open {reqs : List (String × String)} {s : System} {i : Nat}
    (hinv : Inv reqs s) (hlt : i < reqs.length) (hpc : s.pc i = .atOpen) :
    Inv reqs { s with
      world := { s.world with file := .present none },
      pc := Function.update s.pc i .atEncode } := by
  have hci : (s.pc i).inCritical = true := by rw [hpc]; rfl
  have hc : ∀ j, (Function.update s.pc i Pc.atEncode j).inCritical = (s.pc j).inCritical :=
    crit_update _ _ _ (by rw [hpc]; rfl)
  have hs : ∀ j, (Function.update s.pc i Pc.atEncode j).stored = (s.pc j).stored :=
    stored_update _ _ _ (by rw [hpc]; rfl)
  have hother : ∀ j, j < reqs.length → j ≠ i → (s.pc j).inCritical = true → False :=
    fun j hj hji hcj => hji (hinv.unique j i hj hlt hcj hci)
  exact {
    locked_iff := by simpa only [hc] using hinv.locked_iff
    unique := by simpa only [hc] using hinv.unique
    stored := by simpa only [hs] using hinv.stored
    buf := by
      intro j b hj hb
      by_cases hji : j = i
      · subst hji; simp at hb
      · exact hinv.buf j b hj (by simpa [Function.update_noteq hji] using hb)
    ret := by
      intro j hj hr
      by_cases hji : j = i
      · subst hji; simp at hr
      · simp only [Function.update_noteq hji] at hr
        exact (hother j hj hji (by rw [hr]; rfl)).elim
    idle := by
      intro hl
      have : s.locked = true := hinv.locked_iff.mpr ⟨i, hlt, hci⟩
      rw [this] at hl
      cases hl }

/-- The marshalling of `dict.Words` under the mutex. -/
theorem Inv_encode {reqs : List (String × String)} {s : System} {i : Nat}
    (hinv : Inv reqs s) (hpc : s.pc i = .atEncode) :
    Inv reqs { s with
      pc := Function.update s.pc i (.atWrite (Encode s.world.dict.Words)) } := by
  have hc : ∀ j, (Function.update s.pc i (Pc.atWrite (Encode s.world.dict.Words)) j).inCritical
      = (s.pc j).inCritical := crit_update _ _ _ (by rw [hpc]; rfl)
  have hs : ∀ j, (Function.update s.pc i (Pc.atWrite (Encode s.world.dict.Words)) j).stored
      = (s.pc j).stored := stored_update _ _ _ (by rw [hpc]; rfl)
  exact {
    locked_iff := by simpa only [hc] using hinv.locked_iff
    unique := by simpa only [hc] using hinv.unique
    stored := by simpa only [hs] using hinv.stored
    buf := by
      intro j b hj hb
      by_cases hji : j = i
      · subst hji
        simp only [Function.update_same] at hb
        cases hb
        rfl
      · exact hinv.buf j b hj (by simpa [Function.update_noteq hji] using hb)
    ret := by
      intro j hj hr
      by_cases hji : j = i
      · subst hji; simp at hr
      · exact hinv.ret j hj (by simpa [Function.update_noteq hji] using hr)
    idle := by
      rintro hl ⟨j, hj, hdn⟩
      by_cases hji : j = i
      · subst hji; simp [Pc.isDone] at hdn
      · exact hinv.idle hl ⟨j, hj, by simpa [Function.update_noteq hji] using hdn⟩ }

/-- The write of the marshalled bytes under the mutex. -/
theorem Inv_write {reqs : List (String × String)} {s : System} {i : Nat} {b : JSON}
    (hinv : Inv reqs s) (hlt : i < reqs.length) (hpc : s.pc i = .atWrite b) :
    Inv reqs { s with
      world := { s.world with file := .present (some b) },
      pc := Function.update s.pc i .atReturn } := by
  have hb : b = Encode s.world.dict.Words := hinv.buf i b hlt hpc
  have hc : ∀ j, (Function.update s.pc i Pc.atReturn j).inCritical = (s.pc j).inCritical :=
    crit_update _ _ _ (by rw [hpc]; rfl)
  have hs : ∀ j, (Function.update s.pc i Pc.atReturn j).stored = (s.pc j).stored :=
    stored_update _ _ _ (by rw [hpc]; rfl)
  exact {
    locked_iff := by simpa only [hc] using hinv.locked_iff
    unique := by simpa only [hc] using hinv.unique
    stored := by simpa only [hs] using hinv.stored
    buf := by
      intro j b' hj hb'
      by_cases hji : j = i
      · subst hji; simp at hb'
      · exact hinv.buf j b' hj (by simpa [Function.update_noteq hji] using hb')
    ret := by intro j _ _; rw [hb]
    idle := by intro _ _; rw [hb] }

/-- The return of a call, with the deferred `Unlock`. -/
theorem Inv_return {reqs : List (String × String)} {s : System} {i : Nat}
    (hinv : Inv reqs s) (hlt : i < reqs.length) (hpc : s.pc i = .atReturn) :
    Inv reqs { s with locked := false, pc := Function.update s.pc i .done } := by
  have hci : (s.pc i).inCritical = true := by rw [hpc]; rfl
  have hs : ∀ j, (Function.update s.pc i Pc.done j).stored = (s.pc j).stored :=
    stored_update _ _ _ (by rw [hpc]; rfl)
  have hnone : ∀ j, j < reqs.length →
      (Function.update s.pc i Pc.done j).inCritical = true → False := by
    intro j hj hc
    by_cases hji : j = i
    · subst hji; simp [Pc.inCritical] at hc
    · rw [Function.update_noteq hji] at hc
      exact hji (hinv.unique j i hj hlt hc hci)
  exact {
    locked_iff := ⟨fun h => (by cases h), fun ⟨j, hj, hc⟩ => (hnone j hj hc).elim⟩
    unique := fun j _ hj _ hcj _ => (hnone j hj hcj).elim
    stored := by simpa only [hs] using hinv.stored
    buf := by
      intro j b hj hb
      by_cases hji : j = i
      · subst hji; simp at hb
      · exact hinv.buf j b hj (by simpa [Function.update_noteq hji] using hb)
    ret := fun _ _ _ => hinv.ret i hlt hpc
    idle := fun _ _ => hinv.ret i hlt hpc }

/-- Every step keeps the invariant. -/
theorem step_inv {reqs : List (String × String)} (hd : (reqs.map Prod.fst).Nodup)
    {i : Nat} {s s' : System} (hinv : Inv reqs s) (h : step reqs i s = some s') :
    Inv reqs s' := by
  unfold step at h
  cases hi : reqs[i]? with
  | none => rw [hi] at h; cases h
  | some e =>
    have hlt : i < reqs.length := (List.getElem?_eq_some.mp hi).1
    rw [hi] at h
    cases hpc : s.pc i with
    | entry =>
      simp only [hpc, Option.some.injEq] at h
      subst h
      exact Inv_entry hinv hpc
    | atLock =>
      simp only [hpc] at h
      cases hl : s.locked with
      | true => rw [hl] at h; simp at h
      | false =>
        rw [hl] at h
        simp only [Bool.false_eq_true, if_false, Option.some.injEq] at h
        subst h
        exact Inv_lock hinv hlt hl
    | atStore =>
      simp only [hpc, Option.some.injEq] at h
      subst h
      exact Inv_store hd hinv hi hpc
    | atOpen =>
      simp only [hpc, Option.some.injEq] at h
      subst h
      exact Inv_open hinv hlt hpc
    | atEncode =>
      simp only [hpc, Option.some.injEq] at h
      subst h
      exact Inv_encode hinv hpc
    | atWrite b =>
      simp only [hpc, Option.some.injEq] at h
      subst h
      exact Inv_write hinv hlt hpc
    | atReturn =>
      simp only [hpc, Option.some.injEq] at h
      subst h
      exact Inv_return hinv hlt hpc
    | done =>
      simp only [hpc] at h
      cases h

theorem run_inv {reqs : List (String × String)} (hd : (reqs.map Prod.fst).Nodup)
    (sched : List Nat) : ∀ {s s' : System}, Inv reqs s → run reqs s sched = some s' →
      Inv reqs s' := by
  induction sched with
  | nil =>
    intro s s' hinv h
    simp only [run, Option.some.injEq] at h
    exact h ▸ hinv
  | cons i rest ih =>
    intro s s' hinv h
    simp only [run] at h
    cases hs : step reqs i s with
    | none => rw [hs] at h; cases h
    | some s₁ =>
      rw [hs] at h
      exact ih (step_inv hd hinv hs) h

/-- A step is a step of one existing call, which moves one point ahead. -/
theorem step_pc {reqs : List (String × String)} {i : Nat} {s s' : System}
    (h : step reqs i s = some s') :
    i < reqs.length ∧ ∃ p, s'.pc = Function.update s.pc i p
      ∧ p.remaining + 1 = (s.pc i).remaining := by
  unfold step at h
  cases hi : reqs[i]? with
  | none => rw [hi] at h; cases h
  | some e =>
    refine ⟨(List.getElem?_eq_some.mp hi).1, ?_⟩
    rw [hi] at h
    cases hpc : s.pc i with
    | entry =>
      simp only [hpc, Option.some.injEq] at h
      subst h
      exact ⟨_, rfl, rfl⟩
    | atLock =>
      simp only [hpc] at h
      cases hl : s.locked with
      | true => rw [hl] at h; simp at h
      | false =>
        rw [hl] at h
        simp only [Bool.false_eq_true, if_false, Option.some.injEq] at h
        subst h
        exact ⟨_, rfl, rfl⟩
    | atStore =>
      simp only [hpc, Option.some.injEq] at h
      subst h
      exact ⟨_, rfl, rfl⟩
    | atOpen =>
      simp only [hpc, Option.some.injEq] at h
      subst h
      exact ⟨_, rfl, rfl⟩
    | atEncode =>
      simp only [hpc, Option.some.injEq] at h
      subst h
      exact ⟨_, rfl, rfl⟩
    | atWrite b =>
      simp only [hpc, Option.some.injEq] at h
      subst h
      exact ⟨_, rfl, rfl⟩
    | atReturn =>
      simp only [hpc, Option.some.injEq] at h
      subst h
      exact ⟨_, rfl, rfl⟩
    | done =>
      simp only [hpc] at h
      cases h

theorem step_remaining {reqs : List (String × String)} {i : Nat} {s s' : System}
    (h : step reqs i s = some s') : s'.remaining reqs + 1 = s.remaining reqs := by
  obtain ⟨hlt, p, hp, hrem⟩ := step_pc h
  have hmem : i ∈ Finset.range reqs.length := Finset.mem_range.mpr hlt
  have hfun : (fun j => (s'.pc j).remaining)
      = Function.update (fun j => (s.pc j).remaining) i p.remaining := by
    funext j
    rw [hp]
    by_cases hji : j = i
    · subst hji; simp
    · simp [Function.update_noteq hji]
  unfold System.remaining
  rw [hfun, Finset.sum_update_of_mem hmem,
    Finset.sum_eq_add_sum_diff_singleton hmem (fun j => (s.pc j).remaining)]
  omega

theorem run_remaining {reqs : List (String × String)} (sched : List Nat) :
    ∀ {s s' : System}, run reqs s sched = some s' →
      s'.remaining reqs + sched.length = s.remaining reqs := by
  induction sched with
  | nil =>
    intro s s' h
    simp only [run, Option.some.injEq] at h
    subst h
    rfl
  | cons i rest ih =>
    intro s s' h
    simp only [run] at h
    cases hs : step reqs i s with
    | none => rw [hs] at h; cases h
    | some s₁ =>
      rw [hs] at h
      have h1 := ih h
      have h2 := step_remaining hs
      rw [List.length_cons]
      omega

theorem remaining_init (reqs : List (String × String)) (σ : World) :
    (System.init σ).remaining reqs = 7 * reqs.length := by
  simp [System.remaining, System.init, Pc.remaining, Nat.mul_comm]

theorem allDone_iff_remaining (reqs : List (String × String)) (s : System) :
    s.allDone reqs ↔ s.remaining reqs = 0 := by
  have hp : ∀ p : Pc, p.isDone = true ↔ p.remaining = 0 := by
    intro p; cases p <;> simp [Pc.isDone, Pc.remaining]
  simp only [System.allDone, System.remaining, Finset.sum_eq_zero_iff, Finset.mem_range, hp]

/-- While a call has not returned, some call can take a step. -/
theorem progress {reqs : List (String × String)} {s : System} (hinv : Inv reqs s)
    (h : ¬ s.allDone reqs) : ∃ i, (step reqs i s).isSome = true := by
  cases hl : s.locked with
  | true =>
    obtain ⟨i, hlt, hc⟩ := hinv.locked_iff.mp hl
    refine ⟨i, ?_⟩
    unfold step
    rw [List.getElem?_eq_getElem hlt]
    cases hpc : s.pc i <;> simp [hpc, Pc.inCritical] at hc ⊢
  | false =>
    have : ∃ i, i < reqs.length ∧ ¬ (s.pc i).isDone = true := by
      by_contra hcon
      exact h (fun i hi => by_contra (fun hn => hcon ⟨i, hi, hn⟩))
    obtain ⟨i, hlt, hnd⟩ := this
    have hnc : ¬ (s.pc i).inCritical = true := by
      intro hc
      rw [hinv.locked_iff.mpr ⟨i, hlt, hc⟩] at hl
      cases hl
    refine ⟨i, ?_⟩
    unfold step
    rw [List.getElem?_eq_getElem hlt]
    cases hpc : s.pc i <;> simp [hpc, Pc.inCritical, Pc.isDone, hl] at hnc hnd ⊢

/-- C9: calls of `AddWordHandler` for distinct words, run concurrently from any
state under any interleaving. An interleaving has at most seven steps per call
and has exactly that many when every call has returned; until then some call
can take a step; and once every call has returned, the store holds every
entry and the file reads back, without error, as a map with the lookups of the
store, every entry among them. -/
theorem concurrent_adds (σ : World) (reqs : List (String × String))
    (hd : (reqs.map Prod.fst).Nodup) (sched : List Nat) (s : System)
    (hrun : run reqs (System.init σ) sched = some s) :
    sched.length ≤ 7 * reqs.length
    ∧ (s.allDone reqs ↔ sched.length = 7 * reqs.length)
    ∧ (¬ s.allDone reqs → ∃ i, (step reqs i s).isSome = true)
    ∧ (s.allDone reqs → ∀ e ∈ reqs,
        s.world.dict.Words.get? e.1 = some e.2
        ∧ ∃ m, readDictionary s.world.file = (some m, none)
          ∧ m.get? e.1 = some e.2
          ∧ ∀ k, m.get? k = s.world.dict.Words.get? k) := by
  have hinv : Inv reqs s := run_inv hd sched (Inv_init reqs σ) hrun
  have hrem := run_remaining sched hrun
  rw [remaining_init] at hrem
  refine ⟨by omega, ?_, progress hinv, ?_⟩
  · rw [allDone_iff_remaining]
    constructor <;> intro h <;> omega
  · intro hall e he
    obtain ⟨i, hi⟩ := List.mem_iff_getElem?.mp he
    have hlt : i < reqs.length := (List.getElem?_eq_some.mp hi).1
    have hdone : (s.pc i).isDone = true := hall i hlt
    have hst : (s.pc i).stored = true := by
      cases hpc : s.pc i <;> simp [hpc, Pc.isDone, Pc.stored] at hdone ⊢
    have hw := hinv.stored i e hi hst
    have hfree : s.locked = false := by
      cases hl : s.locked with
      | false => rfl
      | true =>
        obtain ⟨j, hj, hc⟩ := hinv.locked_iff.mp hl
        have hdj := hall j hj
        cases hpc : s.pc j <;> simp [hpc, Pc.isDone, Pc.inCritical] at hdj hc
    have hfile := hinv.idle hfree ⟨i, hlt, hdone⟩
    refine ⟨hw, reloaded s.world.dict.Words, ?_, ?_, reloaded_get? _⟩
    · rw [hfile, readDictionary_saved]
    · rw [reloaded_get?, hw]

/-- A call that runs alone does to the state what `AddWordHandler` does. -/
theorem run_alone (σ : World) (w d : String) (q : List (String × String)) :
    (run [(w, d)] (System.init σ) [0, 0, 0, 0, 0, 0, 0]).map System.world
      = some (AddWordHandler .ok .fresh
          ⟨http.MethodPost, some (.obj [("word", .str w), ("definition", .str d)]), q⟩ σ).2 := by
  rw [AddWordHandler_saved _ _ _ rfl (decodeAddReq_wellFormed w d)]
  rfl

theorem concurrent_adds_witness :
    ([("a", "x"), ("b", "y")].map Prod.fst).Nodup
    ∧ ∃ s, run [("a", "x"), ("b", "y")] (System.init sampleWorld)
          [0, 1, 0, 0, 1, 0, 0, 0, 0, 1, 1, 1, 1, 1, 1] = none
        ∧ run [("a", "x"), ("b", "y")] (System.init sampleWorld)
          [0, 0, 0, 1, 0, 0, 0, 0, 1, 1, 1, 1, 1, 1] = some s
        ∧ s.world.dict.Words.get? "a" = some "x"
        ∧ s.world.dict.Words.get? "b" = some "y"
        ∧ ∃ m, readDictionary s.world.file = (some m, none) ∧ m.get? "b" = some "y" := by
  have hd : ([("a", "x"), ("b", "y")].map Prod.fst).Nodup := by decide
  have hsome : (run [("a", "x"), ("b", "y")] (System.init sampleWorld)
      [0, 0, 0, 1, 0, 0, 0, 0, 1, 1, 1, 1, 1, 1]).isSome = true := rfl
  obtain ⟨s, hs⟩ := Option.isSome_iff_exists.mp hsome
  obtain ⟨_, hall, _, hfin⟩ := concurrent_adds sampleWorld _ hd _ s hs
  have hdone := hall.mpr rfl
  obtain ⟨ha, _⟩ := hfin hdone ("a", "x") (by simp)
  obtain ⟨hb, m, hm, hmb, _⟩ := hfin hdone ("b", "y") (by simp)
  exact ⟨hd, s, rfl, hs, ha, hb, m, hm, hmb⟩

end SimpleDictionary
